import Mathlib

/-!
Verification of the bridge card-game server (cardserver.py, logic/scoring.py,
logic/rotation.py) against its natural-language specification.

The Python source is shallowly embedded: pure functions (scoring, rotation,
bid ordinals) become Lean functions on Int/Nat; the mutable GameServer object
becomes an explicit ServerState record with state-passing functions for each
handler.  Python exceptions that are swallowed by a bare except (or that kill
the background update thread before any mutation) are modelled by returning
the state unchanged, which matches the observable state content.
-/

namespace Bridge

/-- Biddable suits / strains, in the order of the SUITS list of the source
(clubs, diamonds, hearts, spades, notrump).  Card suits use the same type;
no card ever has suit notrump. -/
inductive Strain
  | clubs
  | diamonds
  | hearts
  | spades
  | notrump
deriving DecidableEq, Repr

/-- Seats, in the order of the PLAYER_POSITIONS list of the source. -/
inductive Seat
  | north
  | east
  | south
  | west
deriving DecidableEq, Repr

/-- The two partnerships. -/
inductive Team
  | northsouth
  | eastwest
deriving DecidableEq, Repr

/-- PLAYER_POSITIONS.index. -/
def Seat.idx : Seat → Nat
  | .north => 0
  | .east => 1
  | .south => 2
  | .west => 3

/-- PLAYER_POSITIONS[n % 4]: the source always indexes the list with a value
reduced mod 4. -/
def Seat.ofIdx (n : Nat) : Seat :=
  match n % 4 with
  | 0 => .north
  | 1 => .east
  | 2 => .south
  | _ => .west

/-- Client.allocate_team / Bid.allocate_team: the fixed partnership of a seat. -/
def teamOf : Seat → Team
  | .north => .northsouth
  | .south => .northsouth
  | .east => .eastwest
  | .west => .eastwest

/-- The doubling status of a contract as passed to chicago_score
(the strings given as doubled argument: empty, X, XX). -/
inductive Doubling
  | undoubled
  | x
  | xx
deriving DecidableEq, Repr

/-- suit_points dictionary of chicago_score. -/
def suit_points : Strain → Int
  | .clubs => 20
  | .diamonds => 20
  | .hearts => 30
  | .spades => 30
  | .notrump => 30

/-- doubling_multiplier dictionary of chicago_score. -/
def doubling_multiplier : Doubling → Int
  | .undoubled => 1
  | .x => 2
  | .xx => 4

/-- Penalty (before the redouble factor) of a doubled contract that went down:
the vulnerable / non-vulnerable arms of the down branch of chicago_score. -/
def doubled_down_penalty (declarer_vulnerable : Bool) (down : Int) : Int :=
  if declarer_vulnerable then 200 + (down - 1) * 300
  else if down = 1 then 100 else 100 + (down - 1) * 200

/-- The result dictionary returned by chicago_score. -/
structure ScoreResult where
  contract_points : Int
  overtricks : Int
  bonuses : Int
  insult_bonus : Int
  slam_bonus : Int
  game_bonus : Int
  part_score_bonus : Int
  penalty : Int
  total : Int
deriving DecidableEq, Repr

/-- logic/scoring.py chicago_score: score breakdown for one deal. -/
def chicago_score (contract_level : Int) (contract_suit : Strain)
    (doubled : Doubling) (declarer_vulnerable : Bool) (tricks_made : Int) :
    ScoreResult :=
  let base_score := suit_points contract_suit
  let multiplier := doubling_multiplier doubled
  let required_tricks := 6 + contract_level
  let overtricks := tricks_made - required_tricks
  if 0 ≤ overtricks then
    -- Contract made or exceeded
    let first_trick_bonus : Int := if contract_suit = .notrump then 10 else 0
    let contract_points :=
      contract_level * base_score * multiplier + first_trick_bonus * multiplier
    let overtricks_value : Int :=
      match doubled with
      | .undoubled => overtricks * base_score
      | .x => overtricks * (if declarer_vulnerable then 200 else 100)
      | .xx => overtricks * (if declarer_vulnerable then 400 else 200)
    let part_score_bonus : Int := if contract_points < 100 then 50 else 0
    let game_bonus : Int :=
      if contract_points < 100 then 0
      else if declarer_vulnerable then 500 else 300
    let slam_bonus : Int :=
      if contract_level = 6 then (if declarer_vulnerable then 750 else 500)
      else if contract_level = 7 then (if declarer_vulnerable then 1500 else 1000)
      else 0
    let insult_bonus : Int :=
      match doubled with
      | .undoubled => 0
      | .x => 50
      | .xx => 100
    let bonuses := part_score_bonus + game_bonus + slam_bonus + insult_bonus
    { contract_points := contract_points
      overtricks := overtricks_value
      bonuses := bonuses
      insult_bonus := insult_bonus
      slam_bonus := slam_bonus
      game_bonus := game_bonus
      part_score_bonus := part_score_bonus
      penalty := 0
      total := contract_points + overtricks_value + bonuses + 0 }
  else
    -- Contract down.  abs(overtricks) is modelled with natAbs.
    let down : Int := overtricks.natAbs
    let penalty : Int :=
      match doubled with
      | .undoubled => -down * (if declarer_vulnerable then 100 else 50)
      | _ =>
        -(doubled_down_penalty declarer_vulnerable down *
          (if doubled = .xx then 2 else 1))
    { contract_points := 0
      overtricks := 0
      bonuses := 0
      insult_bonus := 0
      slam_bonus := 0
      game_bonus := 0
      part_score_bonus := 0
      penalty := penalty
      total := 0 + 0 + 0 + penalty }

/-- C5: for every defeated contract (tricks_made < 6+level), chicago_score
returns total = −penalty where the undoubled penalty is down×50 non-vulnerable
or down×100 vulnerable, the doubled vulnerable penalty is 200+(down−1)×300,
the doubled non-vulnerable penalty is 100 for the first undertrick plus 200
for each subsequent one, and redoubling doubles the doubled penalty again;
in particular level 3 hearts, doubled, vulnerable, tricks_made 7 totals −500. -/
theorem C5_down_penalties (level : Int) (strain : Strain)
    (vuln : Bool) (tricks : Int) (hdown : tricks < 6 + level) :
    (chicago_score level strain .undoubled vuln tricks).total =
      -((6 + level - tricks) * (if vuln then 100 else 50)) ∧
    (chicago_score level strain .x true tricks).total =
      -(200 + (6 + level - tricks - 1) * 300) ∧
    (chicago_score level strain .x false tricks).total =
      -(100 + (6 + level - tricks - 1) * 200) ∧
    (chicago_score level strain .xx true tricks).total =
      2 * (chicago_score level strain .x true tricks).total ∧
    (chicago_score level strain .xx false tricks).total =
      2 * (chicago_score level strain .x false tricks).total ∧
    (chicago_score 3 .hearts .x true 7).total = -500 := by
  have hneg : ¬ (0 ≤ tricks - (6 + level)) := by omega
  have habs : |tricks - (6 + level)| = 6 + level - tricks := by
    rw [abs_of_neg (by omega)]; ring
  refine ⟨?_, ?_, ?_, ?_, ?_, by decide⟩ <;>
    simp [chicago_score, hneg, doubled_down_penalty, habs] <;>
    first
      | (split_ifs <;> omega)
      | ring

/-- Closed witness for C5 at level 3 hearts doubled vulnerable with 7 tricks. -/
theorem C5_down_penalties_witness :
    (7 : Int) < 6 + 3 ∧ (chicago_score 3 .hearts .x true 7).total = -500 :=
  ⟨by decide, (C5_down_penalties 3 .hearts true 7 (by decide)).2.2.2.2.2⟩

/-- C6: for every made undoubled non-vulnerable contract, chicago_score gives
contract_points = level×trick_value (+10 if notrump), overtrick value =
trick_value each, part-score bonus 50 exactly when contract_points < 100 and
game bonus 300 otherwise; in particular 4 spades making 10 tricks totals 420
and 1 notrump making 9 tricks totals 150. -/
theorem C6_made_undoubled (level : Int) (strain : Strain) (tricks : Int)
    (hmade : 6 + level ≤ tricks) :
    (chicago_score level strain .undoubled false tricks).contract_points =
      level * suit_points strain + (if strain = .notrump then 10 else 0) ∧
    (chicago_score level strain .undoubled false tricks).overtricks =
      (tricks - (6 + level)) * suit_points strain ∧
    (chicago_score level strain .undoubled false tricks).part_score_bonus =
      (if level * suit_points strain + (if strain = .notrump then 10 else 0) < 100
       then 50 else 0) ∧
    (chicago_score level strain .undoubled false tricks).game_bonus =
      (if level * suit_points strain + (if strain = .notrump then 10 else 0) < 100
       then 0 else 300) ∧
    (chicago_score 4 .spades .undoubled false 10).contract_points = 120 ∧
    (chicago_score 4 .spades .undoubled false 10).game_bonus = 300 ∧
    (chicago_score 4 .spades .undoubled false 10).total = 420 ∧
    (chicago_score 1 .notrump .undoubled false 9).contract_points = 40 ∧
    (chicago_score 1 .notrump .undoubled false 9).overtricks = 60 ∧
    (chicago_score 1 .notrump .undoubled false 9).part_score_bonus = 50 ∧
    (chicago_score 1 .notrump .undoubled false 9).total = 150 := by
  have hpos : 0 ≤ tricks - (6 + level) := by omega
  refine ⟨?_, ?_, ?_, ?_, by decide, by decide, by decide, by decide,
    by decide, by decide, by decide⟩ <;>
    cases strain <;>
      simp [chicago_score, hpos, suit_points, doubling_multiplier]

/-- Closed witness for C6 at 4 spades making 10 tricks. -/
theorem C6_made_undoubled_witness :
    (6 : Int) + 4 ≤ 10 ∧
      (chicago_score 4 .spades .undoubled false 10).total = 420 :=
  ⟨by decide, (C6_made_undoubled 4 .spades 10 (by decide)).2.2.2.2.2.2.1⟩

/-- Vulnerability values ("none", "both", "northsouth", "eastwest"). -/
inductive Vul
  | vnone
  | vboth
  | vnorthsouth
  | veastwest
deriving DecidableEq, Repr

/-- The vulnerability naming a single partnership. -/
def vulOfTeam : Team → Vul
  | .northsouth => .vnorthsouth
  | .eastwest => .veastwest

/-- dealer_order list of logic/rotation.py (identical to PLAYER_POSITIONS). -/
def dealer_order : List Seat := [.north, .east, .south, .west]

/-- logic/rotation.py chicago_rotate: dealer and vulnerability for a deal. -/
def chicago_rotate (round_number : Nat) : Seat × Vul :=
  let index := round_number - 1
  let block_start := index / 4 % 4
  let position := index % 4
  let dealer_index := (block_start + position) % 4
  let dealer := (dealer_order.getD dealer_index .north)
  let vulnerability :=
    if position = 0 then Vul.vnone
    else if position = 3 then Vul.vboth
    else if dealer = .north ∨ dealer = .south then Vul.vnorthsouth
    else Vul.veastwest
  (dealer, vulnerability)

/-- C7: for deal_number ≥ 1, the dealer is
seats[((deal_number−1) div 4 mod 4 + (deal_number−1) mod 4) mod 4]; the
vulnerability is "none" at position (deal_number−1) mod 4 = 0, "both" at
position 3, and otherwise the dealer's own partnership; and the whole
rotation repeats exactly every 16 deals. -/
theorem C7_rotation (d : Nat) (hd : 1 ≤ d) :
    (chicago_rotate d).1 =
      dealer_order.getD (((d - 1) / 4 % 4 + (d - 1) % 4) % 4) .north ∧
    ((d - 1) % 4 = 0 → (chicago_rotate d).2 = Vul.vnone) ∧
    ((d - 1) % 4 = 3 → (chicago_rotate d).2 = Vul.vboth) ∧
    ((d - 1) % 4 ≠ 0 → (d - 1) % 4 ≠ 3 →
      (chicago_rotate d).2 = vulOfTeam (teamOf (chicago_rotate d).1)) ∧
    chicago_rotate (d + 16) = chicago_rotate d := by
  have hpos : (d + 16 - 1) % 4 = (d - 1) % 4 := by omega
  have hblk : (d + 16 - 1) / 4 % 4 = (d - 1) / 4 % 4 := by omega
  refine ⟨rfl, ?_, ?_, ?_, ?_⟩
  · intro h0; simp [chicago_rotate, h0]
  · intro h3
    have h0 : (d - 1) % 4 ≠ 0 := by omega
    simp [chicago_rotate, h3, h0]
  · intro h0 h3
    have hlt : ((d - 1) / 4 % 4 + (d - 1) % 4) % 4 < 4 := by omega
    simp only [chicago_rotate, if_neg h0, if_neg h3]
    interval_cases h : ((d - 1) / 4 % 4 + (d - 1) % 4) % 4 <;>
      simp [dealer_order, teamOf, vulOfTeam]
  · simp only [chicago_rotate, hpos, hblk]

/-- Closed witness for C7 at deal 6 (position 1, dealer east, eastwest
vulnerable). -/
theorem C7_rotation_witness :
    1 ≤ 6 ∧ chicago_rotate (6 + 16) = chicago_rotate 6 :=
  ⟨by decide, (C7_rotation 6 (by decide)).2.2.2.2⟩

/-- SUITS.index of a biddable suit (clubs 0, diamonds 1, hearts 2, spades 3,
notrump 4). -/
def strain_index : Strain → Nat
  | .clubs => 0
  | .diamonds => 1
  | .hearts => 2
  | .spades => 3
  | .notrump => 4

/-- GameServer.get_bid_ordinal: strictly increasing value of a bid.  A bid
whose level is None has ordinal −1.  The case of a set level with an unset
suit makes the source raise ValueError inside SUITS.index; callers guard it
(modelled as −1, unreachable through lock_bid). -/
def get_bid_ordinal (bid_level : Option Int) (bid_suit : Option Strain) : Int :=
  match bid_level, bid_suit with
  | none, _ => -1
  | some l, some s => (strain_index s : Int) + (l - 1) * 5
  | some _, none => -1

/-- C8: the ordinal of a real bid is rank(strain) + (level−1)×5 with rank
clubs=0, diamonds=1, hearts=2, spades=3, notrump=4; it is strictly increasing
across the 35 (level, strain) pairs in lexicographic (level, rank) order; and
the ordinal of an unset bid is −1, strictly below every real bid. -/
theorem C8_bid_ordinal (l1 l2 : Int) (s1 s2 : Strain) (su : Option Strain)
    (h1a : 1 ≤ l1) (h1b : l1 ≤ 7) (_h2a : 1 ≤ l2) (_h2b : l2 ≤ 7)
    (hlt : l1 < l2 ∨ (l1 = l2 ∧ strain_index s1 < strain_index s2)) :
    get_bid_ordinal (some l1) (some s1) = (strain_index s1 : Int) + (l1 - 1) * 5 ∧
    get_bid_ordinal (some l1) (some s1) < get_bid_ordinal (some l2) (some s2) ∧
    get_bid_ordinal none su = -1 ∧
    -1 < get_bid_ordinal (some l1) (some s1) := by
  refine ⟨rfl, ?_, rfl, ?_⟩
  · cases s1 <;> cases s2 <;>
      simp only [get_bid_ordinal, strain_index] at hlt ⊢ <;> omega
  · cases s1 <;> simp only [get_bid_ordinal, strain_index] <;> omega

/-- Closed witness for C8: 1♠ against 2♣ (consecutive in the bid order). -/
theorem C8_bid_ordinal_witness :
    get_bid_ordinal (some 1) (some .spades) <
      get_bid_ordinal (some 2) (some .clubs) :=
  (C8_bid_ordinal 1 2 .spades .clubs none (by decide) (by decide) (by decide)
    (by decide) (Or.inl (by decide))).2.1

/-- Game phases of the dispatcher cycle. -/
inductive Phase
  | dealing
  | bidding
  | playing
  | scoring
  | resetting
deriving DecidableEq, Repr

/-- Card locations the server actually assigns. -/
inductive Location
  | deck
  | hand
  | table
  | tricks
deriving DecidableEq, Repr

/-- Card facing. -/
inductive Facing
  | up
  | down
deriving DecidableEq, Repr

/-- Bid types. -/
inductive BidType
  | pass
  | double
  | normal
deriving DecidableEq, Repr

/-- ServerCard: value is the index into CARD_VALUES; the constructor sets
ordinal to the same index. -/
structure Card where
  suit : Strain
  value : Nat
  ordinal : Nat
  facing : Facing
  location : Location
  owner : Option Seat
  trick : Option Team
deriving DecidableEq, Repr

/-- One entry of the bidding history (class Bid). -/
structure BidRec where
  player : Seat
  btype : BidType
  level : Option Int
  suit : Option Strain
  team : Team
deriving DecidableEq, Repr

/-- The game-relevant fields of a Client object (used both for connected
clients and for bots). -/
structure ClientRec where
  position : Seat
  bid_suit : Option Strain
  bid_level : Option Int
  bid_type : Option BidType
deriving DecidableEq, Repr

/-- The payload of a lock_bid action message. -/
structure BidAction where
  bid_level : Option Int
  bid_suit : Option Strain
  bid_type : BidType
deriving DecidableEq, Repr

/-- The mutable GameServer state.  Sockets, sound hints and the score / deal
counters, which no claim mentions, are omitted. -/
structure ServerState where
  game_phase : Phase
  client_list : List ClientRec
  bot_list : List ClientRec
  current_turn : Seat
  contract_suit : Option Strain
  contract_level : Option Int
  contract_doubled : Bool
  contract_team : Option Team
  card_list : List Card
  bidding_history : List BidRec
  dummy_position : Option Seat
  declarer_position : Option Seat
deriving DecidableEq, Repr

/-- GameServer.advance_turn on the seat value. -/
def next_seat (s : Seat) : Seat := Seat.ofIdx (s.idx + 1)

/-- GameServer.advance_turn. -/
def advance_turn (st : ServerState) : ServerState :=
  { st with current_turn := next_seat st.current_turn }

/-- Mutation of the first player record with the given position, setting its
bid fields from an action (the source mutates the Client object returned by
next()). -/
def set_bid : List ClientRec → Seat → BidAction → List ClientRec
  | [], _, _ => []
  | c :: rest, pos, a =>
    if c.position = pos then
      { c with bid_level := a.bid_level, bid_suit := a.bid_suit,
               bid_type := some a.bid_type } :: rest
    else c :: set_bid rest pos a

/-- The partner-protection test of lock_bid: at least two recorded bids, the
last one a pass and the one before it a normal bid. -/
def doubling_blocked (h : List BidRec) : Bool :=
  match h.reverse with
  | b1 :: b2 :: _ => decide (b1.btype = BidType.pass ∧ b2.btype = BidType.normal)
  | _ => false

/-- The accepting tail of lock_bid: record the bid on the client, update the
contract, append to the history and advance the turn.  pos is the position of
the client that lock_bid looked up by current_turn. -/
def lock_bid_accept (st : ServerState) (pos : Seat) (a : BidAction) :
    ServerState :=
  let st1 := { st with client_list := set_bid st.client_list st.current_turn a }
  let st2 :=
    if a.bid_type = BidType.normal then
      { st1 with contract_level := a.bid_level, contract_suit := a.bid_suit,
                 contract_team := some (teamOf pos), contract_doubled := false }
    else st1
  let st3 :=
    if a.bid_type = BidType.double then { st2 with contract_doubled := true }
    else st2
  let b : BidRec :=
    { player := pos, btype := a.bid_type, level := a.bid_level,
      suit := a.bid_suit, team := teamOf pos }
  advance_turn { st3 with bidding_history := st3.bidding_history ++ [b] }

/-- GameServer.lock_bid.  The source checks the turn but never the game
phase.  A set level with an unset suit raises ValueError in get_bid_ordinal,
and a turn seat absent from client_list raises StopIteration in next(); both
exceptions are swallowed by handle_client, leaving the state unchanged. -/
def lock_bid (st : ServerState) (player_position : Seat) (a : BidAction) :
    ServerState :=
  if player_position ≠ st.current_turn then st
  else if a.bid_level.isSome = true ∧ a.bid_suit = none then st
  else if get_bid_ordinal a.bid_level a.bid_suit ≤
            get_bid_ordinal st.contract_level st.contract_suit ∧
          a.bid_type ≠ BidType.pass ∧ a.bid_type ≠ BidType.double then st
  else if a.bid_type = BidType.double ∧ st.contract_level = none then st
  else if a.bid_type = BidType.double ∧ st.contract_doubled = true then st
  else if a.bid_type = BidType.double ∧
          doubling_blocked st.bidding_history = true then st
  else
    match st.client_list.find?
        (fun c => decide (c.position = st.current_turn)) with
    | none => st
    | some client => lock_bid_accept st client.position a

/-- The bidding-ended test of bidding_logic: at least 4 bids, the last three
all passes (Python list slice h[-3:]), and a contract set. -/
def bidding_ended (st : ServerState) : Prop :=
  4 ≤ st.bidding_history.length ∧
  (∀ b ∈ st.bidding_history.drop (st.bidding_history.length - 3),
    b.btype = BidType.pass) ∧
  st.contract_level ≠ none

instance (st : ServerState) : Decidable (bidding_ended st) := by
  unfold bidding_ended; infer_instance

/-- The all-pass redeal test of bidding_logic: at least 4 bids and the last
four all passes. -/
def no_bid_round (st : ServerState) : Prop :=
  4 ≤ st.bidding_history.length ∧
  (∀ b ∈ st.bidding_history.drop (st.bidding_history.length - 4),
    b.btype = BidType.pass)

instance (st : ServerState) : Decidable (no_bid_round st) := by
  unfold no_bid_round; infer_instance

/-- The declarer search predicate of bidding_logic: the first recorded bid
with the contract's suit and team. -/
def declarer_test (st : ServerState) (b : BidRec) : Bool :=
  decide (b.suit = st.contract_suit ∧ some b.team = st.contract_team)

/-- GameServer.bidding_logic without the bot branch, which is modelled
separately by opponent_bid (when a human sits at current_turn the source
reaches neither branch and changes nothing).  A failing declarer search
raises StopIteration, killing the update thread with the state unchanged. -/
def bidding_logic (st : ServerState) : ServerState :=
  if bidding_ended st then
    match st.bidding_history.find? (declarer_test st) with
    | none => st
    | some declarer_bid =>
      { st with
        declarer_position := some declarer_bid.player,
        dummy_position := some (Seat.ofIdx (declarer_bid.player.idx + 2)),
        game_phase := Phase.playing,
        current_turn := Seat.ofIdx (declarer_bid.player.idx + 1) }
  else if no_bid_round st then { st with game_phase := Phase.resetting }
  else st

/-- Client records for a full human table with no standing bids. -/
def full_table : List ClientRec :=
  [⟨.north, none, none, none⟩, ⟨.east, none, none, none⟩,
   ⟨.south, none, none, none⟩, ⟨.west, none, none, none⟩]

/-- A concrete state just after the auction 1♣(north), pass, pass, pass has
ended: the phase is playing and east is to act. -/
def after_auction_state : ServerState :=
  { game_phase := .playing
    client_list := full_table
    bot_list := []
    current_turn := .east
    contract_suit := some .clubs
    contract_level := some 1
    contract_doubled := false
    contract_team := some .northsouth
    card_list := []
    bidding_history :=
      [⟨.north, .normal, some 1, some .clubs, .northsouth⟩,
       ⟨.east, .pass, none, none, .eastwest⟩,
       ⟨.south, .pass, none, none, .northsouth⟩,
       ⟨.west, .pass, none, none, .eastwest⟩]
    dummy_position := some .south
    declarer_position := some .north }

/-- C1 (code bug): lock_bid never checks the game phase.  In the playing
phase with the turn at east, a normal 2♥ submission is accepted: it
overwrites the contract, extends the bidding history and advances the turn,
although the claim requires a no-op whenever the phase is not bidding. -/
theorem C1_lock_bid_ignores_phase :
    after_auction_state.game_phase ≠ Phase.bidding ∧
    (lock_bid after_auction_state .east
        ⟨some 2, some .hearts, .normal⟩).contract_level = some 2 ∧
    (lock_bid after_auction_state .east
        ⟨some 2, some .hearts, .normal⟩).contract_team = some .eastwest ∧
    (lock_bid after_auction_state .east
        ⟨some 2, some .hearts, .normal⟩).bidding_history.length = 5 ∧
    (lock_bid after_auction_state .east
        ⟨some 2, some .hearts, .normal⟩).current_turn = .south ∧
    lock_bid after_auction_state .east ⟨some 2, some .hearts, .normal⟩ ≠
      after_auction_state := by
  decide

/-- GameServer.remove_client: shut the socket (I/O, not modelled) and delete
the client record.  When no client with the position exists, next() yields
None and list.remove(None) raises ValueError, caught upstream with the state
unchanged. -/
def remove_client (st : ServerState) (pos : Seat) : ServerState :=
  match st.client_list.find? (fun c => decide (c.position = pos)) with
  | some c => { st with client_list := st.client_list.erase c }
  | none => st

/-- GameServer.remove_player: remove the connected client seated at the given
position.  The source iterates the client list and calls remove_client on the
match; seats are unique, so at most one record is removed. -/
def remove_player (st : ServerState) (pos : Seat) : ServerState :=
  if st.client_list.any (fun c => decide (c.position = pos)) then
    remove_client st pos
  else st

/-- The random.choice of opponent_bid. -/
inductive BotChoice
  | choosePass
  | chooseBid
deriving DecidableEq, Repr

/-- SUITS[n % 5]: the source indexes SUITS with a value already reduced
mod 5. -/
def strain_of_index (n : Nat) : Strain :=
  match n % 5 with
  | 0 => .clubs
  | 1 => .diamonds
  | 2 => .hearts
  | 3 => .spades
  | _ => .notrump

/-- The passing arm of opponent_bid: clear the bot's standing bid, record a
pass in the history and advance the turn. -/
def opponent_bid_pass (st : ServerState) (pos : Seat) : ServerState :=
  let st1 :=
    { st with bot_list := set_bid st.bot_list pos ⟨none, none, BidType.pass⟩ }
  advance_turn
    { st1 with bidding_history := st1.bidding_history ++
        [{ player := pos, btype := BidType.pass, level := none, suit := none,
           team := teamOf pos }] }

/-- The bidding arm of opponent_bid: record the bot's normal bid, replace the
contract, append to the history and advance the turn. -/
def opponent_bid_normal (st : ServerState) (pos : Seat) (l : Int) (s : Strain) :
    ServerState :=
  let st1 :=
    { st with bot_list := set_bid st.bot_list pos ⟨some l, some s, BidType.normal⟩ }
  let st2 :=
    { st1 with contract_level := some l, contract_suit := some s,
               contract_team := some (teamOf pos), contract_doubled := false }
  advance_turn
    { st2 with bidding_history := st2.bidding_history ++
        [{ player := pos, btype := BidType.normal, level := some l,
           suit := some s, team := teamOf pos }] }

/-- GameServer.opponent_bid: the fallback bid for an unseated turn, with the
random choice as a parameter.  A missing bot makes next() raise
StopIteration, which kills the update thread with the state unchanged;
likewise a contract level without a suit raises inside SUITS.index. -/
def opponent_bid (st : ServerState) (choice : BotChoice) : ServerState :=
  match st.bot_list.find? (fun b => decide (b.position = st.current_turn)) with
  | none => st
  | some bot =>
    match choice with
    | .choosePass => opponent_bid_pass st bot.position
    | .chooseBid =>
      match st.contract_level, st.contract_suit with
      | none, _ => opponent_bid_normal st bot.position 1 .clubs
      | some l, some cs =>
        if l < 4 then
          let index := (strain_index cs + 1) % 5
          opponent_bid_normal st bot.position
            (l + (if index = 0 then 1 else 0)) (strain_of_index index)
        else opponent_bid_pass st bot.position
      | some _, none => st

/-- A three-human table (north, east, south) with a bot at west, in the
bidding phase with north to act. -/
def three_human_state : ServerState :=
  { game_phase := .bidding
    client_list := [⟨.north, none, none, none⟩, ⟨.east, none, none, none⟩,
      ⟨.south, none, none, none⟩]
    bot_list := [⟨.west, none, none, none⟩]
    current_turn := .north
    contract_suit := none
    contract_level := none
    contract_doubled := false
    contract_team := none
    card_list := []
    bidding_history := []
    dummy_position := none
    declarer_position := none }

/-- C2 (code bug): the leave_game handler remove_player deletes the client
record but never returns the seat to the bot list, so afterwards the seat is
controlled by nobody: the bot lookup of opponent_bid finds nothing, which in
the source raises StopIteration inside the dispatcher loop instead of letting
the fallback policy play the seat.  (A transport read failure never even
reaches removal: handle_client swallows every exception and keeps looping.) -/
theorem C2_leave_does_not_restore_bot :
    ((remove_player three_human_state .north).client_list.all
      (fun c => decide (c.position ≠ .north))) = true ∧
    (remove_player three_human_state .north).bot_list =
      three_human_state.bot_list ∧
    ((remove_player three_human_state .north).bot_list.all
      (fun c => decide (c.position ≠ .north))) = true ∧
    (∀ choice, opponent_bid (remove_player three_human_state .north) choice =
      remove_player three_human_state .north) := by
  refine ⟨by decide, by decide, by decide, ?_⟩
  intro choice
  cases choice <;> decide

/-- The cards whose location is table, in card_list order. -/
def table_cards (l : List Card) : List Card :=
  l.filter (fun c => decide (c.location = Location.table))

/-- One step of the highest-card loop of allocate_trick. -/
def trick_step (contract_suit : Option Strain) (highcard card : Card) : Card :=
  if card.suit = highcard.suit ∧ highcard.ordinal ≤ card.ordinal then card
  else if some card.suit = contract_suit ∧ some highcard.suit ≠ contract_suit
  then card
  else highcard

/-- The highest card found by allocate_trick's loop: start from table[0] and
iterate over the whole table list. -/
def trick_winner (contract_suit : Option Strain) : List Card → Option Card
  | [] => none
  | t0 :: rest => some ((t0 :: rest).foldl (trick_step contract_suit) t0)

/-- GameServer.allocate_trick: with exactly 4 cards on the table, set
current_turn to the owner of the winning card.  (An ownerless winning card
would set current_turn to None in the source and crash later lookups; dealt
cards always carry an owner.) -/
def allocate_trick (st : ServerState) : ServerState :=
  let table := table_cards st.card_list
  if table.length = 4 then
    match trick_winner st.contract_suit table with
    | some highcard =>
      match highcard.owner with
      | some o => { st with current_turn := o }
      | none => st
    | none => st
  else st

/-- The loop of allocate_trick only ever returns its start card or a card of
the list it walks. -/
theorem trick_fold_mem (t : Option Strain) (l : List Card) (a : Card) :
    l.foldl (trick_step t) a = a ∨ l.foldl (trick_step t) a ∈ l := by
  induction l generalizing a with
  | nil => exact Or.inl rfl
  | cons c l ih =>
    simp only [List.foldl_cons]
    have hstep : trick_step t a c = a ∨ trick_step t a c = c := by
      unfold trick_step; split_ifs <;> simp
    rcases ih (trick_step t a c) with h | h
    · rcases hstep with h2 | h2
      · exact Or.inl (h.trans h2)
      · exact Or.inr (by rw [h, h2]; exact List.mem_cons_self c l)
    · exact Or.inr (List.mem_cons_of_mem c h)

/-- Starting from a trump card, the loop stays on trump and ends no lower
than the start and than every trump it walks past. -/
theorem trick_fold_trump (t : Option Strain) (l : List Card) (a : Card)
    (ha : some a.suit = t) :
    some (l.foldl (trick_step t) a).suit = t ∧
    a.ordinal ≤ (l.foldl (trick_step t) a).ordinal ∧
    ∀ c ∈ l, some c.suit = t → c.ordinal ≤ (l.foldl (trick_step t) a).ordinal := by
  induction l generalizing a with
  | nil => exact ⟨ha, le_refl _, by simp⟩
  | cons c l ih =>
    simp only [List.foldl_cons]
    have hstep : (some (trick_step t a c).suit = t ∧
        a.ordinal ≤ (trick_step t a c).ordinal ∧
        (some c.suit = t → c.ordinal ≤ (trick_step t a c).ordinal)) := by
      unfold trick_step
      split_ifs with h1 h2
      · exact ⟨by rw [← ha, h1.1], h1.2, fun _ => le_refl _⟩
      · exact absurd ha h2.2
      · refine ⟨ha, le_refl _, fun hc => ?_⟩
        have hsuit : c.suit = a.suit := by
          have := hc.trans ha.symm
          exact Option.some_injective _ this
        have : ¬ (a.ordinal ≤ c.ordinal) := fun hle => h1 ⟨hsuit, hle⟩
        omega
    obtain ⟨hs, hord, hc⟩ := hstep
    obtain ⟨ih1, ih2, ih3⟩ := ih (trick_step t a c) hs
    refine ⟨ih1, le_trans hord ih2, ?_⟩
    intro d hd hdt
    rcases List.mem_cons.mp hd with rfl | hd
    · exact le_trans (hc hdt) ih2
    · exact ih3 d hd hdt

/-- When no trump is among the walked cards, the loop stays on the start
card's suit and ends no lower than the start and than every card of that
suit it walks past. -/
theorem trick_fold_nontrump (t : Option Strain) (l : List Card) (a : Card)
    (hnt : ∀ c ∈ l, some c.suit ≠ t) :
    (l.foldl (trick_step t) a).suit = a.suit ∧
    a.ordinal ≤ (l.foldl (trick_step t) a).ordinal ∧
    ∀ c ∈ l, c.suit = a.suit → c.ordinal ≤ (l.foldl (trick_step t) a).ordinal := by
  induction l generalizing a with
  | nil => exact ⟨rfl, le_refl _, by simp⟩
  | cons c l ih =>
    simp only [List.foldl_cons]
    have hcnt : some c.suit ≠ t := hnt c (List.mem_cons_self c l)
    have hstep : ((trick_step t a c).suit = a.suit ∧
        a.ordinal ≤ (trick_step t a c).ordinal ∧
        (c.suit = a.suit → c.ordinal ≤ (trick_step t a c).ordinal)) := by
      unfold trick_step
      split_ifs with h1 h2
      · exact ⟨h1.1, h1.2, fun _ => le_refl _⟩
      · exact absurd h2.1 hcnt
      · refine ⟨rfl, le_refl _, fun hsuit => ?_⟩
        have : ¬ (a.ordinal ≤ c.ordinal) := fun hle => h1 ⟨hsuit, hle⟩
        omega
    obtain ⟨hs, hord, hc⟩ := hstep
    obtain ⟨ih1, ih2, ih3⟩ :=
      ih (trick_step t a c) (fun d hd => hnt d (List.mem_cons_of_mem c hd))
    refine ⟨by rw [ih1, hs], le_trans hord ih2, ?_⟩
    intro d hd hdsuit
    rcases List.mem_cons.mp hd with rfl | hd
    · exact le_trans (hc hdsuit) ih2
    · exact ih3 d hd (by rw [hdsuit, hs])

/-- Starting from a non-trump card with a trump among the walked cards, the
loop ends on trump, no lower than every trump it walks past. -/
theorem trick_fold_finds_trump (t : Option Strain) (l : List Card) (a : Card)
    (ha : some a.suit ≠ t) (hex : ∃ c ∈ l, some c.suit = t) :
    some (l.foldl (trick_step t) a).suit = t ∧
    ∀ c ∈ l, some c.suit = t → c.ordinal ≤ (l.foldl (trick_step t) a).ordinal := by
  induction l generalizing a with
  | nil => obtain ⟨c, hc, _⟩ := hex; exact absurd hc (List.not_mem_nil c)
  | cons c l ih =>
    simp only [List.foldl_cons]
    by_cases hct : some c.suit = t
    · have hne : c.suit ≠ a.suit := fun h => ha (by rw [← h]; exact hct)
      have hstep : trick_step t a c = c := by
        unfold trick_step
        rw [if_neg (fun h => hne h.1), if_pos ⟨hct, ha⟩]
      rw [hstep]
      obtain ⟨h1, h2, h3⟩ := trick_fold_trump t l c hct
      refine ⟨h1, ?_⟩
      intro d hd hdt
      rcases List.mem_cons.mp hd with rfl | hd
      · exact h2
      · exact h3 d hd hdt
    · have hstep : some (trick_step t a c).suit ≠ t := by
        unfold trick_step
        split_ifs with h1 h2
        · rw [h1.1]; exact ha
        · exact absurd h2.1 hct
        · exact ha
      have hex2 : ∃ d ∈ l, some d.suit = t := by
        obtain ⟨d, hd, hdt⟩ := hex
        rcases List.mem_cons.mp hd with rfl | hd
        · exact absurd hdt hct
        · exact ⟨d, hd, hdt⟩
      obtain ⟨ih1, ih2⟩ := ih (trick_step t a c) hstep hex2
      refine ⟨ih1, ?_⟩
      intro d hd hdt
      rcases List.mem_cons.mp hd with rfl | hd
      · exact absurd hdt hct
      · exact ih2 d hd hdt

/-- C3: with 4 table cards, the resolved winner is the card with the highest
ordinal of the led suit (the suit of the first table card) unless a card of
the contract strain was played, in which case it is the highest such trump;
and allocate_trick sets current_turn to the winner's owner. -/
theorem C3_trick_resolution (st : ServerState) (t0 : Card) (rest : List Card)
    (ht : table_cards st.card_list = t0 :: rest)
    (hlen : (table_cards st.card_list).length = 4)
    (w : Card)
    (hw : trick_winner st.contract_suit (table_cards st.card_list) = some w)
    (o : Seat) (ho : w.owner = some o) :
    w ∈ table_cards st.card_list ∧
    ((∃ c ∈ table_cards st.card_list, some c.suit = st.contract_suit) →
      some w.suit = st.contract_suit ∧
      ∀ c ∈ table_cards st.card_list, some c.suit = st.contract_suit →
        c.ordinal ≤ w.ordinal) ∧
    ((∀ c ∈ table_cards st.card_list, some c.suit ≠ st.contract_suit) →
      w.suit = t0.suit ∧
      ∀ c ∈ table_cards st.card_list, c.suit = t0.suit →
        c.ordinal ≤ w.ordinal) ∧
    (allocate_trick st).current_turn = o := by
  have hwdef : w = (t0 :: rest).foldl (trick_step st.contract_suit) t0 := by
    rw [ht] at hw
    simpa [trick_winner] using hw.symm
  refine ⟨?_, ?_, ?_, ?_⟩
  · rw [ht]
    rcases trick_fold_mem st.contract_suit (t0 :: rest) t0 with h | h
    · rw [hwdef, h]; exact List.mem_cons_self t0 rest
    · rw [hwdef]; exact h
  · intro hex
    rw [ht] at hex
    by_cases h0 : some t0.suit = st.contract_suit
    · obtain ⟨h1, _, h3⟩ :=
        trick_fold_trump st.contract_suit (t0 :: rest) t0 h0
      rw [ht, hwdef]
      exact ⟨h1, h3⟩
    · obtain ⟨h1, h2⟩ :=
        trick_fold_finds_trump st.contract_suit (t0 :: rest) t0 h0 hex
      rw [ht, hwdef]
      exact ⟨h1, h2⟩
  · intro hnt
    rw [ht] at hnt
    obtain ⟨h1, _, h3⟩ := trick_fold_nontrump st.contract_suit (t0 :: rest) t0 hnt
    rw [ht, hwdef]
    exact ⟨h1, h3⟩
  · simp [allocate_trick, hlen, hw, ho]

/-- Concrete trick cards: clubs led, trump spades, two spades played. -/
def club_ace : Card := ⟨.clubs, 12, 12, .up, .table, some (.north), none⟩

/-- The 2♠ played by east. -/
def spade_two : Card := ⟨.spades, 0, 0, .up, .table, some (.east), none⟩

/-- The K♣ played by south. -/
def club_king : Card := ⟨.clubs, 11, 11, .up, .table, some (.south), none⟩

/-- The 5♠ played by west, the highest trump of the trick. -/
def spade_five : Card := ⟨.spades, 3, 3, .up, .table, some (.west), none⟩

/-- A card still in hand, to exercise the table filter. -/
def diamond_hand : Card := ⟨.diamonds, 5, 5, .up, .hand, some (.north), none⟩

/-- A playing-phase state with the four trick cards on the table, trump
spades. -/
def trick_state : ServerState :=
  { game_phase := .playing
    client_list := full_table
    bot_list := []
    current_turn := .north
    contract_suit := some .spades
    contract_level := some 1
    contract_doubled := false
    contract_team := some .northsouth
    card_list := [diamond_hand, club_ace, spade_two, club_king, spade_five]
    bidding_history := []
    dummy_position := none
    declarer_position := none }

/-- Closed witness for C3: clubs led, trump spades, spades among the four
cards - the trick goes to west's 5♠ although both clubs outrank it. -/
theorem C3_trick_resolution_witness :
    (allocate_trick trick_state).current_turn = Seat.west :=
  (C3_trick_resolution trick_state club_ace [spade_two, club_king, spade_five]
    (by decide) (by decide) spade_five (by decide) .west (by decide)).2.2.2

/-- The initial bidding state of the first deal with four connected humans:
dealer north to act, no contract, empty history. -/
def open_bidding_state : ServerState :=
  { game_phase := .bidding
    client_list := full_table
    bot_list := []
    current_turn := .north
    contract_suit := none
    contract_level := none
    contract_doubled := false
    contract_team := none
    card_list := []
    bidding_history := []
    dummy_position := none
    declarer_position := none }

/-- State after 1♣ by north and a dispatcher tick. -/
def auction_s1 : ServerState :=
  bidding_logic (lock_bid open_bidding_state .north ⟨some 1, some .clubs, .normal⟩)

/-- State after east's pass and a tick. -/
def auction_s2 : ServerState :=
  bidding_logic (lock_bid auction_s1 .east ⟨none, none, .pass⟩)

/-- State after south's pass and a tick. -/
def auction_s3 : ServerState :=
  bidding_logic (lock_bid auction_s2 .south ⟨none, none, .pass⟩)

/-- State after west's pass and a tick: the auction has ended. -/
def auction_s4 : ServerState :=
  bidding_logic (lock_bid auction_s3 .west ⟨none, none, .pass⟩)

/-- C4: the auction 1♣(north), pass(east), pass(south), pass(west) stays in
the bidding phase through the first three calls and transitions to playing
exactly after the fourth, with contract 1♣ for northsouth, declarer north,
dummy south and east to lead; and in general bidding_logic moves a bidding
state to playing only when at least 4 bids exist, the last three are passes
and a contract is set. -/
theorem C4_auction_end :
    auction_s1.game_phase = Phase.bidding ∧
    auction_s2.game_phase = Phase.bidding ∧
    auction_s3.game_phase = Phase.bidding ∧
    auction_s4.game_phase = Phase.playing ∧
    auction_s4.contract_level = some 1 ∧
    auction_s4.contract_suit = some Strain.clubs ∧
    auction_s4.contract_team = some Team.northsouth ∧
    auction_s4.declarer_position = some Seat.north ∧
    auction_s4.dummy_position = some Seat.south ∧
    auction_s4.current_turn = Seat.east ∧
    (∀ st : ServerState, st.game_phase = Phase.bidding →
      (bidding_logic st).game_phase = Phase.playing → bidding_ended st) := by
  refine ⟨by decide, by decide, by decide, by decide, by decide, by decide,
    by decide, by decide, by decide, by decide, ?_⟩
  intro st hb hp
  by_cases he : bidding_ended st
  · exact he
  · exfalso
    by_cases hn : no_bid_round st
    · simp [bidding_logic, he, hn] at hp
    · simp [bidding_logic, he, hn] at hp
      rw [hb] at hp
      exact Phase.noConfusion hp

/-- Closed witness for C4's general part: the state right after west's pass
(before the tick) satisfies the three auction-end conditions. -/
theorem C4_auction_end_witness :
    bidding_ended (lock_bid auction_s3 .west ⟨none, none, .pass⟩) :=
  C4_auction_end.2.2.2.2.2.2.2.2.2.2
    (lock_bid auction_s3 .west ⟨none, none, .pass⟩) (by decide) (by decide)

/-- allocate_trick only ever changes current_turn. -/
theorem allocate_trick_card_list (st : ServerState) :
    (allocate_trick st).card_list = st.card_list := by
  unfold allocate_trick
  dsimp only
  split
  · split
    · split <;> rfl
    · rfl
  · rfl

/-- The hand of a seat: the cards located in hand and owned by it, in
card_list order. -/
def hand_cards (st : ServerState) (pos : Seat) : List Card :=
  st.card_list.filter
    (fun c => decide (c.location = Location.hand ∧ c.owner = some pos))

/-- The accepting tail of play_card: find the card (find_card returns the
first match on suit and value), check it lies in the player's hand, set its
location to table, move it to the end of the list, then advance the turn or
resolve the full trick.  A failed lookup returns None in the source and the
attribute access on it raises, caught by handle_client. -/
def play_card_move (st : ServerState) (player_position : Seat)
    (card_suit : Strain) (card_value : Nat) : ServerState :=
  match st.card_list.findIdx?
      (fun c => decide (c.suit = card_suit ∧ c.value = card_value)) with
  | none => st
  | some i =>
    match st.card_list[i]? with
    | none => st
    | some card =>
      if card.location ≠ Location.hand ∨ card.owner ≠ some player_position then
        st
      else
        let cl := st.card_list.eraseIdx i ++
          [{ card with location := Location.table }]
        let st1 := { st with card_list := cl }
        if (table_cards st1.card_list).length < 4 then advance_turn st1
        else allocate_trick st1

/-- GameServer.play_card.  The follow-suit test uses substring containment on
suit name strings, which on the four suit names coincides with equality. -/
def play_card (st : ServerState) (player_position : Seat) (card_suit : Strain)
    (card_value : Nat) : ServerState :=
  if st.game_phase ≠ Phase.playing then st
  else if player_position ≠ st.current_turn then st
  else if (table_cards st.card_list).length = 4 then st
  else
    match table_cards st.card_list with
    | t0 :: _ =>
      if (hand_cards st player_position).any
            (fun c => decide (c.suit = t0.suit)) ∧ card_suit ≠ t0.suit then st
      else play_card_move st player_position card_suit card_value
    | [] => play_card_move st player_position card_suit card_value

/-- The card selection of opponent_play: the first suit-following card of the
hand, else the first card of the hand. -/
def opponent_selected (st : ServerState) : Option Card :=
  match table_cards st.card_list with
  | t0 :: _ =>
    match (hand_cards st st.current_turn).find?
        (fun c => decide (c.suit = t0.suit)) with
    | some c => some c
    | none => (hand_cards st st.current_turn).head?
  | [] => (hand_cards st st.current_turn).head?

/-- GameServer.opponent_play: the fallback play for an unseated turn.  With
an empty hand the source dereferences None and the update thread dies with
the state unchanged. -/
def opponent_play (st : ServerState) : ServerState :=
  match opponent_selected st with
  | none => st
  | some card =>
    let cl := st.card_list.erase card ++
      [{ card with location := Location.table }]
    let st1 := { st with card_list := cl }
    if (table_cards st1.card_list).length < 4 then advance_turn st1
    else allocate_trick st1

/-- Removing a non-table card by index leaves the table filter unchanged. -/
theorem table_cards_eraseIdx (l : List Card) (i : Nat) (card : Card)
    (hget : l[i]? = some card) (hloc : card.location ≠ Location.table) :
    table_cards (l.eraseIdx i) = table_cards l := by
  induction l generalizing i with
  | nil => simp at hget
  | cons x xs ih =>
    cases i with
    | zero =>
      have hx : x = card := by simpa using hget
      show table_cards xs = table_cards (x :: xs)
      simp [table_cards, List.filter_cons, hx, hloc]
    | succ i =>
      simp only [List.getElem?_cons_succ] at hget
      show table_cards (x :: xs.eraseIdx i) = table_cards (x :: xs)
      simp only [table_cards, List.filter_cons]
      rw [show List.filter (fun c => decide (c.location = Location.table))
            (xs.eraseIdx i) =
          List.filter (fun c => decide (c.location = Location.table)) xs from
        ih i hget]

/-- Removing a non-table card by value leaves the table filter unchanged. -/
theorem table_cards_erase (l : List Card) (card : Card)
    (hloc : card.location ≠ Location.table) :
    table_cards (l.erase card) = table_cards l := by
  induction l with
  | nil => rfl
  | cons x xs ih =>
    rw [List.erase_cons]
    by_cases hx : x = card
    · subst hx
      simp [table_cards, List.filter_cons, hloc]
    · rw [if_neg (by simpa using hx)]
      show table_cards (x :: xs.erase card) = table_cards (x :: xs)
      simp only [table_cards, List.filter_cons]
      rw [show List.filter (fun c => decide (c.location = Location.table))
            (xs.erase card) =
          List.filter (fun c => decide (c.location = Location.table)) xs from ih]

/-- Appending a table card appends it to the table filter. -/
theorem table_cards_append_tabled (l : List Card) (card : Card) :
    table_cards (l ++ [{ card with location := Location.table }]) =
      table_cards l ++ [{ card with location := Location.table }] := by
  simp [table_cards, List.filter_append]

/-- An accepted human play appends the played card, now located on the
table, to the card list and hence to the table filter. -/
theorem play_card_table_append (st : ServerState) (pos : Seat)
    (s : Strain) (v : Nat) (i : Nat) (card : Card)
    (hfind : st.card_list.findIdx?
      (fun c => decide (c.suit = s ∧ c.value = v)) = some i)
    (hget : st.card_list[i]? = some card)
    (hloc : card.location = Location.hand)
    (hown : card.owner = some pos)
    (hphase : st.game_phase = Phase.playing)
    (hturn : pos = st.current_turn)
    (hlen : (table_cards st.card_list).length ≠ 4)
    (hok : ∀ t0 rest, table_cards st.card_list = t0 :: rest →
      ¬ ((hand_cards st pos).any
            (fun c => decide (c.suit = t0.suit)) ∧ s ≠ t0.suit)) :
    (play_card st pos s v).card_list =
      st.card_list.eraseIdx i ++ [{ card with location := Location.table }] ∧
    table_cards (play_card st pos s v).card_list =
      table_cards st.card_list ++ [{ card with location := Location.table }] := by
  have hmove : (play_card_move st pos s v).card_list =
      st.card_list.eraseIdx i ++ [{ card with location := Location.table }] := by
    unfold play_card_move
    simp only [hfind, hget]
    rw [if_neg (by simp [hloc, hown])]
    dsimp only
    split
    · rfl
    · rw [allocate_trick_card_list]
  have hplay : play_card st pos s v = play_card_move st pos s v := by
    unfold play_card
    rw [if_neg (by simp [hphase]), if_neg (by simp [hturn]), if_neg hlen]
    cases htab : table_cards st.card_list with
    | nil => rfl
    | cons t0 rest =>
      show (if (hand_cards st pos).any
            (fun c => decide (c.suit = t0.suit)) ∧ s ≠ t0.suit then st
          else play_card_move st pos s v) = play_card_move st pos s v
      rw [if_neg (hok t0 rest htab)]
  have hlist : (play_card st pos s v).card_list =
      st.card_list.eraseIdx i ++ [{ card with location := Location.table }] := by
    rw [hplay, hmove]
  refine ⟨hlist, ?_⟩
  rw [hlist, table_cards_append_tabled,
    table_cards_eraseIdx st.card_list i card hget (by rw [hloc]; intro h; cases h)]

/-- The card opponent_play selects always lies in the acting seat's hand. -/
theorem opponent_selected_hand (st : ServerState) (card : Card)
    (hsel : opponent_selected st = some card) :
    card.location = Location.hand ∧ card.owner = some st.current_turn := by
  have hmem : card ∈ hand_cards st st.current_turn := by
    unfold opponent_selected at hsel
    split at hsel
    · split at hsel
      · injection hsel with h
        subst h
        exact List.mem_of_find?_eq_some (by assumption)
      · exact List.mem_of_mem_head? (Option.mem_def.mpr hsel)
    · exact List.mem_of_mem_head? (Option.mem_def.mpr hsel)
  have hp := (List.mem_filter.mp hmem).2
  simpa using hp

/-- An accepted bot play appends the selected card, now located on the
table, to the card list and hence to the table filter. -/
theorem opponent_play_table_append (st : ServerState) (card : Card)
    (hsel : opponent_selected st = some card) :
    (opponent_play st).card_list =
      st.card_list.erase card ++ [{ card with location := Location.table }] ∧
    table_cards (opponent_play st).card_list =
      table_cards st.card_list ++ [{ card with location := Location.table }] := by
  have hloc := (opponent_selected_hand st card hsel).1
  have hlist : (opponent_play st).card_list =
      st.card_list.erase card ++ [{ card with location := Location.table }] := by
    unfold opponent_play
    simp only [hsel]
    dsimp only
    split
    · rfl
    · rw [allocate_trick_card_list]
  refine ⟨hlist, ?_⟩
  rw [hlist, table_cards_append_tabled,
    table_cards_erase st.card_list card (by rw [hloc]; intro h; cases h)]

/-- A run of accepted plays, each recorded as the card it put on the table:
a human play_card step carries exactly the acceptance conditions of the
handler, a bot step carries a succeeding card selection. -/
inductive PlayRun : ServerState → List Card → ServerState → Prop
  | nil (st : ServerState) : PlayRun st [] st
  | human (st : ServerState) (pos : Seat) (s : Strain) (v : Nat) (i : Nat)
      (card : Card) (cs : List Card) (stF : ServerState)
      (hfind : st.card_list.findIdx?
        (fun c => decide (c.suit = s ∧ c.value = v)) = some i)
      (hget : st.card_list[i]? = some card)
      (hloc : card.location = Location.hand)
      (hown : card.owner = some pos)
      (hphase : st.game_phase = Phase.playing)
      (hturn : pos = st.current_turn)
      (hlen : (table_cards st.card_list).length ≠ 4)
      (hok : ∀ t0 rest, table_cards st.card_list = t0 :: rest →
        ¬ ((hand_cards st pos).any
              (fun c => decide (c.suit = t0.suit)) ∧ s ≠ t0.suit))
      (hrest : PlayRun (play_card st pos s v) cs stF) :
      PlayRun st ({ card with location := Location.table } :: cs) stF
  | bot (st : ServerState) (card : Card) (cs : List Card) (stF : ServerState)
      (hsel : opponent_selected st = some card)
      (hrest : PlayRun (opponent_play st) cs stF) :
      PlayRun st ({ card with location := Location.table } :: cs) stF

/-- C10: along every run of accepted plays the moved cards are appended at
the end of the card list, so the table-located cards occur in the card list
in play order; in particular, starting from an empty table the first table
card is the first card played, and allocate_trick's loop (trick_winner)
takes exactly that card as the led card. -/
theorem C10_table_play_order (st : ServerState) (cs : List Card)
    (stF : ServerState) (run : PlayRun st cs stF) :
    table_cards stF.card_list = table_cards st.card_list ++ cs ∧
    (∀ c ∈ cs, c.location = Location.table) ∧
    (table_cards st.card_list = [] →
      (table_cards stF.card_list).head? = cs.head?) ∧
    (table_cards st.card_list = [] → ∀ c cs2, cs = c :: cs2 →
      ∀ t, trick_winner t (table_cards stF.card_list) =
        some ((c :: cs2).foldl (trick_step t) c)) := by
  have main : table_cards stF.card_list = table_cards st.card_list ++ cs ∧
      (∀ c ∈ cs, c.location = Location.table) := by
    induction run with
    | nil st => simp
    | human st pos s v i card cs stF hfind hget hloc hown hphase hturn hlen hok
        hrest ih =>
      have hstep := (play_card_table_append st pos s v i card hfind hget hloc
        hown hphase hturn hlen hok).2
      refine ⟨?_, ?_⟩
      · rw [ih.1, hstep, List.append_assoc]
        rfl
      · intro c hc
        rcases List.mem_cons.mp hc with rfl | hc
        · rfl
        · exact ih.2 c hc
    | bot st card cs stF hsel hrest ih =>
      have hstep := (opponent_play_table_append st card hsel).2
      refine ⟨?_, ?_⟩
      · rw [ih.1, hstep, List.append_assoc]
        rfl
      · intro c hc
        rcases List.mem_cons.mp hc with rfl | hc
        · rfl
        · exact ih.2 c hc
  refine ⟨main.1, main.2, ?_, ?_⟩
  · intro hempty
    rw [main.1, hempty]
    rfl
  · intro hempty c cs2 hcs t
    rw [main.1, hempty, hcs]
    rfl

/-- Closed witness for C10: from the bidding-complete concrete state with an
added hand, a bot play of north's only card puts it first on the table. -/
theorem C10_table_play_order_witness :
    table_cards
      (opponent_play
        { after_auction_state with
          current_turn := .north
          client_list := []
          bot_list := full_table
          card_list := [diamond_hand] }).card_list =
      [{ diamond_hand with location := Location.table }] :=
  (C10_table_play_order _ [{ diamond_hand with location := Location.table }] _
    (PlayRun.bot _ diamond_hand [] _ (by decide)
      (PlayRun.nil _))).1

/-- The position index of an indexed seat. -/
theorem seat_idx_ofIdx (n : Nat) : (Seat.ofIdx n).idx = n % 4 := by
  have h : n % 4 = 0 ∨ n % 4 = 1 ∨ n % 4 = 2 ∨ n % 4 = 3 := by omega
  rcases h with h | h | h | h <;> simp [Seat.ofIdx, Seat.idx, h]

/-- Seat indexing only depends on the index mod 4. -/
theorem ofIdx_congr (a b : Nat) (h : a % 4 = b % 4) :
    Seat.ofIdx a = Seat.ofIdx b := by
  unfold Seat.ofIdx
  rw [h]

/-- Advancing an indexed seat increments the index. -/
theorem next_seat_ofIdx (n : Nat) :
    next_seat (Seat.ofIdx n) = Seat.ofIdx (n + 1) := by
  unfold next_seat
  refine ofIdx_congr _ _ ?_
  rw [seat_idx_ofIdx]
  omega

/-- A seat's partnership is determined by the parity of its index. -/
theorem teamOf_parity (s : Seat) :
    teamOf s = (if s.idx % 2 = 0 then Team.northsouth else Team.eastwest) := by
  cases s <;> rfl

/-- A seat reached by indexing carries the partnership of the index parity. -/
theorem teamOf_ofIdx (n : Nat) :
    teamOf (Seat.ofIdx n) =
      (if n % 2 = 0 then Team.northsouth else Team.eastwest) := by
  rw [teamOf_parity, seat_idx_ofIdx]
  by_cases h : n % 2 = 0
  · rw [if_pos (by omega), if_pos h]
  · rw [if_neg (by omega), if_neg h]

/-- The structural invariant of the auction: every recorded bid carries its
bidder's partnership, and whenever a contract is set the history decomposes
as pre ++ z :: tail where z is the normal bid that set the contract (suit and
team agree with the contract), nothing after z is a normal bid, the turn sits
tail.length + 1 seats after z's bidder, and the doubled flag is clear only
when the tail is all passes. -/
def auction_inv (st : ServerState) : Prop :=
  (∀ b ∈ st.bidding_history, b.team = teamOf b.player) ∧
  (st.contract_level ≠ none →
    ∃ pre z tail,
      st.bidding_history = pre ++ z :: tail ∧
      z.btype = BidType.normal ∧
      some z.team = st.contract_team ∧
      z.suit = st.contract_suit ∧
      (∀ b ∈ tail, b.btype ≠ BidType.normal) ∧
      st.current_turn = Seat.ofIdx (z.player.idx + tail.length + 1) ∧
      (st.contract_doubled = false → ∀ b ∈ tail, b.btype = BidType.pass))

/-- Appending a non-normal bid and advancing the turn preserves the auction
invariant when the contract fields are untouched (the doubled flag may be
set). -/
theorem auction_inv_step_nonnormal (st st2 : ServerState) (b : BidRec)
    (hh : st2.bidding_history = st.bidding_history ++ [b])
    (ht : st2.current_turn = next_seat st.current_turn)
    (hl : st2.contract_level = st.contract_level)
    (hs : st2.contract_suit = st.contract_suit)
    (htm : st2.contract_team = st.contract_team)
    (hb : b.btype ≠ BidType.normal)
    (hbt : b.team = teamOf b.player)
    (hd : st2.contract_doubled = false →
      st.contract_doubled = false ∧ b.btype = BidType.pass)
    (hinv : auction_inv st) : auction_inv st2 := by
  obtain ⟨hall, hex⟩ := hinv
  constructor
  · intro c hc
    rw [hh] at hc
    rcases List.mem_append.mp hc with hc | hc
    · exact hall c hc
    · have hcb := List.mem_singleton.mp hc
      subst hcb
      exact hbt
  · intro hcl
    rw [hl] at hcl
    obtain ⟨pre, z, tail, hhist, hz, hteam, hsuit, htail, hturn, hdt⟩ := hex hcl
    refine ⟨pre, z, tail ++ [b], ?_, hz, ?_, ?_, ?_, ?_, ?_⟩
    · rw [hh, hhist, List.append_assoc]
      rfl
    · rw [htm]; exact hteam
    · rw [hs]; exact hsuit
    · intro c hc
      rcases List.mem_append.mp hc with hc | hc
      · exact htail c hc
      · have hcb := List.mem_singleton.mp hc
        subst hcb
        exact hb
    · rw [ht, hturn, List.length_append, List.length_singleton, next_seat_ofIdx]
      exact ofIdx_congr _ _ (by omega)
    · intro hdf c hc
      obtain ⟨hdo, hbp⟩ := hd hdf
      rcases List.mem_append.mp hc with hc | hc
      · exact hdt hdo c hc
      · have hcb := List.mem_singleton.mp hc
        subst hcb
        exact hbp

/-- Appending a normal bid by the seat on turn and advancing the turn
establishes the auction invariant for the newly set contract. -/
theorem auction_inv_step_normal (st st2 : ServerState) (b : BidRec)
    (hh : st2.bidding_history = st.bidding_history ++ [b])
    (ht : st2.current_turn = next_seat st.current_turn)
    (hcur : b.player = st.current_turn)
    (hb : b.btype = BidType.normal)
    (hbt : b.team = teamOf b.player)
    (htm : st2.contract_team = some b.team)
    (hs : st2.contract_suit = b.suit)
    (hinv : auction_inv st) : auction_inv st2 := by
  obtain ⟨hall, _⟩ := hinv
  constructor
  · intro c hc
    rw [hh] at hc
    rcases List.mem_append.mp hc with hc | hc
    · exact hall c hc
    · have hcb := List.mem_singleton.mp hc
      subst hcb
      exact hbt
  · intro _
    refine ⟨st.bidding_history, b, [], ?_, hb, ?_, ?_, ?_, ?_, ?_⟩
    · rw [hh]
    · rw [htm]
    · rw [hs]
    · intro c hc; cases hc
    · rw [ht, ← hcur, List.length_nil]
      unfold next_seat
      exact ofIdx_congr _ _ (by omega)
    · intro _ c hc; cases hc

/-- The explicit record computed by lock_bid_accept for a pass. -/
theorem lock_bid_accept_eq_pass (st : ServerState) (pos : Seat) (a : BidAction)
    (ha : a.bid_type = BidType.pass) :
    lock_bid_accept st pos a =
      { st with
        client_list := set_bid st.client_list st.current_turn a
        bidding_history := st.bidding_history ++
          [{ player := pos, btype := BidType.pass, level := a.bid_level,
             suit := a.bid_suit, team := teamOf pos }]
        current_turn := next_seat st.current_turn } := by
  simp [lock_bid_accept, advance_turn, ha]

/-- The explicit record computed by lock_bid_accept for a double. -/
theorem lock_bid_accept_eq_double (st : ServerState) (pos : Seat)
    (a : BidAction) (ha : a.bid_type = BidType.double) :
    lock_bid_accept st pos a =
      { st with
        client_list := set_bid st.client_list st.current_turn a
        contract_doubled := true
        bidding_history := st.bidding_history ++
          [{ player := pos, btype := BidType.double, level := a.bid_level,
             suit := a.bid_suit, team := teamOf pos }]
        current_turn := next_seat st.current_turn } := by
  simp [lock_bid_accept, advance_turn, ha]

/-- The explicit record computed by lock_bid_accept for a normal bid. -/
theorem lock_bid_accept_eq_normal (st : ServerState) (pos : Seat)
    (a : BidAction) (ha : a.bid_type = BidType.normal) :
    lock_bid_accept st pos a =
      { st with
        client_list := set_bid st.client_list st.current_turn a
        contract_level := a.bid_level
        contract_suit := a.bid_suit
        contract_team := some (teamOf pos)
        contract_doubled := false
        bidding_history := st.bidding_history ++
          [{ player := pos, btype := BidType.normal, level := a.bid_level,
             suit := a.bid_suit, team := teamOf pos }]
        current_turn := next_seat st.current_turn } := by
  simp [lock_bid_accept, advance_turn, ha]

/-- lock_bid_accept preserves the auction invariant when the bidder is the
seat on turn. -/
theorem lock_bid_accept_inv (st : ServerState) (pos : Seat) (a : BidAction)
    (hpos : pos = st.current_turn) (hinv : auction_inv st) :
    auction_inv (lock_bid_accept st pos a) := by
  rcases ha : a.bid_type with _ | _ | _
  · rw [lock_bid_accept_eq_pass st pos a ha]
    exact auction_inv_step_nonnormal st _ _ rfl rfl rfl rfl rfl (by simp)
      rfl (fun hdf => ⟨hdf, rfl⟩) hinv
  · rw [lock_bid_accept_eq_double st pos a ha]
    exact auction_inv_step_nonnormal st _ _ rfl rfl rfl rfl rfl (by simp)
      rfl (fun hdf => by cases hdf) hinv
  · rw [lock_bid_accept_eq_normal st pos a ha]
    exact auction_inv_step_normal st _ _ rfl rfl hpos rfl rfl rfl rfl hinv

/-- lock_bid preserves the auction invariant. -/
theorem lock_bid_inv (st : ServerState) (pos : Seat) (a : BidAction)
    (hinv : auction_inv st) : auction_inv (lock_bid st pos a) := by
  unfold lock_bid
  split_ifs <;> try exact hinv
  cases hfind : st.client_list.find?
      (fun c => decide (c.position = st.current_turn)) with
  | none => exact hinv
  | some client =>
    exact lock_bid_accept_inv st client.position a
      (by simpa using List.find?_some hfind) hinv

/-- opponent_bid_pass preserves the auction invariant. -/
theorem opponent_bid_pass_inv (st : ServerState) (pos : Seat)
    (hinv : auction_inv st) : auction_inv (opponent_bid_pass st pos) := by
  exact auction_inv_step_nonnormal st _
    { player := pos, btype := BidType.pass, level := none, suit := none,
      team := teamOf pos }
    rfl rfl rfl rfl rfl (by simp) rfl (fun hdf => ⟨hdf, rfl⟩) hinv

/-- opponent_bid_normal preserves the auction invariant when the bot is the
seat on turn. -/
theorem opponent_bid_normal_inv (st : ServerState) (pos : Seat) (l : Int)
    (s : Strain) (hpos : pos = st.current_turn) (hinv : auction_inv st) :
    auction_inv (opponent_bid_normal st pos l s) := by
  exact auction_inv_step_normal st _
    { player := pos, btype := BidType.normal, level := some l, suit := some s,
      team := teamOf pos }
    rfl rfl hpos rfl rfl rfl rfl hinv

/-- opponent_bid preserves the auction invariant. -/
theorem opponent_bid_inv (st : ServerState) (choice : BotChoice)
    (hinv : auction_inv st) : auction_inv (opponent_bid st choice) := by
  unfold opponent_bid
  cases hfind : st.bot_list.find?
      (fun b => decide (b.position = st.current_turn)) with
  | none => exact hinv
  | some bot =>
    have hpos : bot.position = st.current_turn := by
      simpa using List.find?_some hfind
    cases choice with
    | choosePass => exact opponent_bid_pass_inv st bot.position hinv
    | chooseBid =>
      cases hcl : st.contract_level with
      | none => exact opponent_bid_normal_inv st bot.position 1 .clubs hpos hinv
      | some l =>
        cases hcs : st.contract_suit with
        | none => exact hinv
        | some cs =>
          by_cases hl4 : l < 4 <;> simp only [hl4, if_true, if_false]
          · exact opponent_bid_normal_inv st bot.position _ _ hpos hinv
          · exact opponent_bid_pass_inv st bot.position hinv

/-- lock_bid_accept never changes the game phase. -/
theorem lock_bid_accept_phase (st : ServerState) (pos : Seat) (a : BidAction) :
    (lock_bid_accept st pos a).game_phase = st.game_phase := by
  rcases ha : a.bid_type with _ | _ | _
  · rw [lock_bid_accept_eq_pass st pos a ha]
  · rw [lock_bid_accept_eq_double st pos a ha]
  · rw [lock_bid_accept_eq_normal st pos a ha]

/-- lock_bid never changes the game phase. -/
theorem lock_bid_phase (st : ServerState) (pos : Seat) (a : BidAction) :
    (lock_bid st pos a).game_phase = st.game_phase := by
  unfold lock_bid
  split_ifs <;> try rfl
  cases hfind : st.client_list.find?
      (fun c => decide (c.position = st.current_turn)) with
  | none => rfl
  | some client => exact lock_bid_accept_phase st client.position a

/-- opponent_bid never changes the game phase. -/
theorem opponent_bid_phase (st : ServerState) (choice : BotChoice) :
    (opponent_bid st choice).game_phase = st.game_phase := by
  unfold opponent_bid
  cases hfind : st.bot_list.find?
      (fun b => decide (b.position = st.current_turn)) with
  | none => rfl
  | some bot =>
    cases choice with
    | choosePass => rfl
    | chooseBid =>
      cases hcl : st.contract_level with
      | none => rfl
      | some l =>
        cases hcs : st.contract_suit with
        | none => rfl
        | some cs =>
          by_cases hl4 : l < 4 <;> simp only [hl4, if_true, if_false] <;> rfl

/-- If a state with the auction invariant still sits in the bidding phase
after a dispatcher tick, the tick changed nothing and the auction-end test
fails on it. -/
theorem bidding_logic_of_bidding (st : ServerState) (hinv : auction_inv st)
    (hres : (bidding_logic st).game_phase = Phase.bidding) :
    bidding_logic st = st ∧ ¬ bidding_ended st := by
  by_cases he : bidding_ended st
  · exfalso
    have hcl : st.contract_level ≠ none := he.2.2
    obtain ⟨pre, z, tail, hhist, _, hteam, hsuit, _, _, _⟩ := hinv.2 hcl
    have hzmem : z ∈ st.bidding_history := by
      rw [hhist]
      exact List.mem_append.mpr (Or.inr (List.mem_cons_self z tail))
    cases hfind : st.bidding_history.find? (declarer_test st) with
    | none =>
      have hz2 := List.find?_eq_none.mp hfind z hzmem
      apply hz2
      unfold declarer_test
      simp [hsuit, hteam]
    | some d =>
      have hpl : (bidding_logic st).game_phase = Phase.playing := by
        unfold bidding_logic
        rw [if_pos he, hfind]
      rw [hpl] at hres
      exact Phase.noConfusion hres
  · by_cases hn : no_bid_round st
    · exfalso
      have hrs : (bidding_logic st).game_phase = Phase.resetting := by
        unfold bidding_logic
        rw [if_neg he, if_pos hn]
      rw [hrs] at hres
      exact Phase.noConfusion hres
    · have hid : bidding_logic st = st := by
        unfold bidding_logic
        rw [if_neg he, if_neg hn]
      exact ⟨hid, he⟩

/-- The tick-serialized states of the bidding process reachable from a
freshly dealt deal: human lock_bid submissions and bot opponent_bid
fallbacks, each immediately followed by a bidding_logic dispatcher tick, for
as long as the phase stays bidding.  This is the serialized discipline of the
spec's concurrency model; the threaded source also admits pre-tick
interleavings in which an action lands before the tick's end detection (see
pretick_state below), and those states lie outside this relation. -/
inductive ReachBidding : ServerState → Prop
  | init (st : ServerState)
      (hphase : st.game_phase = Phase.bidding)
      (hhist : st.bidding_history = [])
      (hlevel : st.contract_level = none)
      (hdoubled : st.contract_doubled = false) : ReachBidding st
  | human (st : ServerState) (pos : Seat) (a : BidAction)
      (hr : ReachBidding st) (hp : st.game_phase = Phase.bidding) :
      ReachBidding (bidding_logic (lock_bid st pos a))
  | bot (st : ServerState) (choice : BotChoice)
      (hr : ReachBidding st) (hp : st.game_phase = Phase.bidding) :
      ReachBidding (bidding_logic (opponent_bid st choice))

/-- Every tick-serialized reachable state that is still bidding satisfies
the auction invariant and fails the auction-end test. -/
theorem reach_inv (st : ServerState) (hr : ReachBidding st) :
    st.game_phase = Phase.bidding → auction_inv st ∧ ¬ bidding_ended st := by
  induction hr with
  | init st hphase hhist hlevel hdoubled =>
    intro _
    refine ⟨⟨?_, ?_⟩, ?_⟩
    · intro b hb
      rw [hhist] at hb
      cases hb
    · intro hcl
      exact absurd hlevel hcl
    · intro hend
      exact hend.2.2 hlevel
  | human st pos a hr hp ih =>
    intro hres
    obtain ⟨hinv, _⟩ := ih hp
    have hinv2 : auction_inv (lock_bid st pos a) := lock_bid_inv st pos a hinv
    obtain ⟨heq, hne2⟩ := bidding_logic_of_bidding _ hinv2 hres
    rw [heq]
    exact ⟨hinv2, hne2⟩
  | bot st choice hr hp ih =>
    intro hres
    obtain ⟨hinv, _⟩ := ih hp
    have hinv2 : auction_inv (opponent_bid st choice) :=
      opponent_bid_inv st choice hinv
    obtain ⟨heq, hne2⟩ := bidding_logic_of_bidding _ hinv2 hres
    rw [heq]
    exact ⟨hinv2, hne2⟩

/-- In every tick-serialized reachable bidding state, a double that
lock_bid accepts (changes the state) finds a set contract that is not yet
doubled and is never submitted by the contract-holding partnership. -/
theorem C9_double_legality (st : ServerState) (hr : ReachBidding st)
    (hphase : st.game_phase = Phase.bidding)
    (pos : Seat) (a : BidAction) (hdouble : a.bid_type = BidType.double)
    (haccept : lock_bid st pos a ≠ st) :
    st.contract_level ≠ none ∧ st.contract_doubled = false ∧
    some (teamOf pos) ≠ st.contract_team := by
  obtain ⟨hinv, hne⟩ := reach_inv st hr hphase
  unfold lock_bid at haccept
  split_ifs at haccept with h1 h2 h3 h4 h5 h6
  · exact absurd rfl haccept
  · exact absurd rfl haccept
  · exact absurd rfl haccept
  · exact absurd rfl haccept
  · exact absurd rfl haccept
  · exact absurd rfl haccept
  · -- the accepting branch: all guards failed
    have hpos : pos = st.current_turn := by
      by_contra hcon
      exact h1 hcon
    have hcl : st.contract_level ≠ none := by
      intro hnone
      exact h4 ⟨hdouble, hnone⟩
    have hdo : st.contract_doubled = false := by
      rcases hb : st.contract_doubled with _ | _
      · rfl
      · exact absurd ⟨hdouble, hb⟩ h5
    have hblocked : doubling_blocked st.bidding_history = false := by
      rcases hb : doubling_blocked st.bidding_history with _ | _
      · rfl
      · exact absurd ⟨hdouble, hb⟩ h6
    refine ⟨hcl, hdo, ?_⟩
    obtain ⟨pre, z, tail, hhist, hz, hteam, _, _, hturn, hdt⟩ := hinv.2 hcl
    have hzt : z.team = teamOf z.player := by
      refine hinv.1 z ?_
      rw [hhist]
      exact List.mem_append.mpr (Or.inr (List.mem_cons_self z tail))
    have htailpass : ∀ b ∈ tail, b.btype = BidType.pass := hdt hdo
    -- the tail holds at most two passes: three would have ended the auction
    have hlen3 : tail.length < 3 := by
      by_contra hge
      push_neg at hge
      apply hne
      refine ⟨?_, ?_, hcl⟩
      · rw [hhist]
        simp [List.length_append]
        omega
      · intro b hb
        have hmem : b ∈ tail := by
          have hdrop : st.bidding_history.drop (pre.length + 1) = tail := by
            rw [hhist, show pre ++ z :: tail = (pre ++ [z]) ++ tail by
              rw [List.append_assoc]; rfl]
            rw [show pre.length + 1 = (pre ++ [z]).length by
              simp [List.length_append]]
            exact List.drop_left (pre ++ [z]) tail
          have hle : pre.length + 1 ≤
              st.bidding_history.length - 3 := by
            rw [hhist]
            simp [List.length_append]
            omega
          have hsub : st.bidding_history.drop
              (st.bidding_history.length - 3) ⊆
              st.bidding_history.drop (pre.length + 1) := by
            intro x hx
            have hdd : st.bidding_history.drop (st.bidding_history.length - 3) =
                (st.bidding_history.drop (pre.length + 1)).drop
                  (st.bidding_history.length - 3 - (pre.length + 1)) := by
              rw [List.drop_drop]
              congr 1
              omega
            rw [hdd] at hx
            exact List.drop_subset _ _ hx
          rw [← hdrop]
          exact hsub hb
        exact htailpass b hmem
    -- a single pass after the normal bid is the blocked-partner shape
    have hlen1 : tail.length ≠ 1 := by
      intro h1len
      obtain ⟨b0, hb0⟩ := List.length_eq_one.mp h1len
      have hb0pass : b0.btype = BidType.pass :=
        htailpass b0 (by rw [hb0]; exact List.mem_singleton.mpr rfl)
      have : doubling_blocked st.bidding_history = true := by
        unfold doubling_blocked
        rw [hhist, hb0]
        rw [show (pre ++ z :: [b0]).reverse = b0 :: z :: pre.reverse by
          simp]
        simp [hb0pass, hz]
      rw [this] at hblocked
      exact Bool.noConfusion hblocked
    have hk : tail.length = 0 ∨ tail.length = 2 := by omega
    -- the submitter sits an odd number of seats after the contract bidder
    intro hteq
    rw [← hteam, Option.some_inj] at hteq
    have hposteam : teamOf pos =
        (if (z.player.idx + tail.length + 1) % 2 = 0 then Team.northsouth
         else Team.eastwest) := by
      rw [hpos, hturn]
      exact teamOf_ofIdx _
    have hzteam : teamOf z.player =
        (if z.player.idx % 2 = 0 then Team.northsouth else Team.eastwest) :=
      teamOf_parity z.player
    rw [hzt, hposteam, hzteam] at hteq
    rcases hk with hk | hk <;>
      · rw [hk] at hteq
        by_cases hp2 : z.player.idx % 2 = 0
        · rw [if_pos hp2, if_neg (by omega)] at hteq
          exact Team.noConfusion hteq
        · rw [if_neg hp2, if_pos (by omega)] at hteq
          exact Team.noConfusion hteq

/-- An accepted double always passes the no-contract and already-doubled
guards of lock_bid, in every state whatsoever. -/
theorem lock_bid_double_guards (st : ServerState) (pos : Seat) (a : BidAction)
    (hdouble : a.bid_type = BidType.double)
    (haccept : lock_bid st pos a ≠ st) :
    st.contract_level ≠ none ∧ st.contract_doubled = false := by
  unfold lock_bid at haccept
  split_ifs at haccept with h1 h2 h3 h4 h5 h6
  · exact absurd rfl haccept
  · exact absurd rfl haccept
  · exact absurd rfl haccept
  · exact absurd rfl haccept
  · exact absurd rfl haccept
  · exact absurd rfl haccept
  · constructor
    · intro hnone
      exact h4 ⟨hdouble, hnone⟩
    · rcases hb : st.contract_doubled with _ | _
      · rfl
      · exact absurd ⟨hdouble, hb⟩ h5

/-- The pre-tick state after the auction 1♣(north), pass(east), pass(south),
pass(west) in which the dispatcher's end detection has not yet run: four
lock_bid applications and nothing else.  This interleaving is a real
execution of the threaded source: handle_client threads apply lock_bid
directly, while bidding_logic runs only at tick boundaries, so after the
fourth pass the phase stays bidding (with the turn back at north) until the
next tick. -/
def pretick_state : ServerState :=
  lock_bid (lock_bid (lock_bid (lock_bid open_bidding_state
    .north ⟨some 1, some .clubs, .normal⟩)
    .east ⟨none, none, .pass⟩)
    .south ⟨none, none, .pass⟩)
    .west ⟨none, none, .pass⟩

/-- C9 counterexample: in the reachable pre-tick bidding state after four
auction-ending bids, lock_bid accepts north's double of north's own
northsouth contract — the partner check only fires when the last bid is a
pass and the one before it a normal bid, and here both are passes.  The
state changes, the doubled flag is set, and the submitter's partnership
equals the contract-holding partnership, refuting the claim as stated. -/
theorem C9_pretick_own_double_accepted :
    pretick_state.game_phase = Phase.bidding ∧
    pretick_state.current_turn = Seat.north ∧
    pretick_state.contract_team = some (teamOf .north) ∧
    lock_bid pretick_state .north ⟨none, none, .double⟩ ≠ pretick_state ∧
    (lock_bid pretick_state .north
      ⟨none, none, .double⟩).contract_doubled = true ∧
    (lock_bid pretick_state .north ⟨none, none, .double⟩).contract_team =
      some (teamOf .north) := by
  decide

/-- C9 (amended): an accepted double always finds a set contract that is not
yet doubled — so at most one double is recorded per undoubled contract — and
in every tick-serialized bidding state (the dispatcher's end detection having
run after each action) an accepted double is never submitted by the
contract-holding partnership.  The serialization proviso is necessary: in
the pre-tick window after four auction-ending bids the source accepts an
own-side double. -/
theorem C9_double_legality_amended :
    (∀ (st : ServerState) (pos : Seat) (a : BidAction),
      a.bid_type = BidType.double → lock_bid st pos a ≠ st →
      st.contract_level ≠ none ∧ st.contract_doubled = false) ∧
    (∀ st : ServerState, ReachBidding st → st.game_phase = Phase.bidding →
      ∀ (pos : Seat) (a : BidAction), a.bid_type = BidType.double →
      lock_bid st pos a ≠ st → some (teamOf pos) ≠ st.contract_team) := by
  constructor
  · intro st pos a hdouble haccept
    exact lock_bid_double_guards st pos a hdouble haccept
  · intro st hr hphase pos a hdouble haccept
    exact (C9_double_legality st hr hphase pos a hdouble haccept).2.2

/-- Closed witness for the amended C9: east's accepted double of north's 1♣
exercises both parts at a concrete tick-serialized state. -/
theorem C9_double_legality_amended_witness :
    (auction_s1.contract_level ≠ none ∧
      auction_s1.contract_doubled = false) ∧
    some (teamOf .east) ≠ auction_s1.contract_team :=
  ⟨C9_double_legality_amended.1 auction_s1 .east ⟨none, none, .double⟩ rfl
      (by decide),
   C9_double_legality_amended.2 auction_s1
    (ReachBidding.human open_bidding_state .north ⟨some 1, some .clubs, .normal⟩
      (ReachBidding.init open_bidding_state rfl rfl rfl rfl) rfl)
    (by decide) .east ⟨none, none, .double⟩ rfl (by decide)⟩

end Bridge
